import Mathlib

/-!
Verification of `CSIKit/reader/readers/read_bfee.py` (IWLBeamformReader).

Shallow embedding conventions:
* payload buffers are `List ℕ` of byte values (each element is a byte, 0..255);
* the CSI matrix is a total function `ℕ → ℕ → ℕ → ℤ × ℤ` holding the complex
  entries as (real, imaginary) integer pairs; `np.empty` allocates without
  initializing, so the fresh matrix is an explicit parameter of the decoder;
* Python float arithmetic used for timestamps is modelled over `ℚ`
  (the literal `10e-7` denotes exactly 10/10^7);
* the dB conversion pair `db`/`dbinv` lives in `CSIKit.util.matlab`, which is
  not part of the source under verification: both are taken as abstract
  function parameters, per the spec's "externally supplied conversion pair";
* a Python exception escaping `read_file` (the `struct.error` from unpacking
  a header shorter than 20 bytes) is modelled by the scan returning `none`.
-/

/-- Signed reinterpretation of the low 8 bits of a natural number; models the
`np.int8(...)` conversion applied to the extracted real/imaginary bytes. -/
def toInt8 (x : ℕ) : ℤ :=
  if x % 256 < 128 then ((x % 256 : ℕ) : ℤ) else ((x % 256 : ℕ) : ℤ) - 256

/-- Byte access `data[n]`; every use in the decoder is bounds-guarded by the
source, so the default value is never observable. -/
def getByte (data : List ℕ) (n : ℕ) : ℕ := data.getD n 0

/-- One extracted component:
`(data[ind8] >> remainder) | (data[1+ind8] << (8-remainder))` then `np.int8`. -/
def extractByte (data : List ℕ) (ind8 rem : ℕ) : ℤ :=
  toInt8 ((getByte data ind8 >>> rem) ||| (getByte data (ind8 + 1) <<< (8 - rem)))

/-- CSI matrix: subcarrier × receive antenna × transmit antenna. -/
def Mat : Type := ℕ → ℕ → ℕ → ℤ × ℤ

/-- An all-zero matrix, used as one concrete allocation. -/
def matZero : Mat := fun _ _ _ => (0, 0)

/-- `csi[a][b][c] = v`. -/
def matWrite (m : Mat) (a b c : ℕ) (v : ℤ × ℤ) : Mat :=
  fun x y z => if x = a ∧ y = b ∧ z = c then v else m x y z

/-- Row actually assigned by `csi[i][perm[j]][k] = ...`: numpy raises
`IndexError` when `perm[j]` is out of the axis bound `n_rx` (or when `j` is
past the end of `perm`), and the source catches it and falls back to
`csi[i][j][k]`. -/
def rowIndex (perm : List ℕ) (n_rx j : ℕ) : ℕ :=
  if j < perm.length ∧ perm.getD j 0 < n_rx then perm.getD j 0 else j

/-- Inner `for k in range(n_tx)` loop of `read_bfee`; `c` counts the remaining
iterations and `k` is the current loop index.  The `break` on
`ind8 + 2 >= len(data)` exits the loop, modelled by returning the state. -/
def kLoop (data perm : List ℕ) (n_rx i j rem : ℕ) : ℕ → ℕ → Mat × ℕ → Mat × ℕ
  | 0, _, s => s
  | c + 1, k, s =>
    let ind8 := s.2 / 8
    if ind8 + 2 ≥ data.length then s
    else
      let re := extractByte data ind8 rem
      let im := extractByte data (ind8 + 1) rem
      kLoop data perm n_rx i j rem c (k + 1)
        (matWrite s.1 i (rowIndex perm n_rx j) k (re, im), s.2 + 16)

/-- Middle `for j in range(n_rx)` loop of `read_bfee`. -/
def jLoop (data perm : List ℕ) (n_rx n_tx i rem : ℕ) : ℕ → ℕ → Mat × ℕ → Mat × ℕ
  | 0, _, s => s
  | c + 1, j, s =>
    jLoop data perm n_rx n_tx i rem c (j + 1) (kLoop data perm n_rx i j rem n_tx 0 s)

/-- Outer `for i in range(30)` loop of `read_bfee`: `index += 3`, then
`remainder = index % 8` fixed for the whole subcarrier. -/
def iLoop (data perm : List ℕ) (n_rx n_tx : ℕ) : ℕ → ℕ → Mat × ℕ → Mat × ℕ
  | 0, _, s => s
  | c + 1, i, s =>
    let index := s.2 + 3
    let rem := index % 8
    iLoop data perm n_rx n_tx c (i + 1)
      (jLoop data perm n_rx n_tx i rem n_rx 0 (s.1, index))

/-- The 13 fields unpacked by `struct.Struct("<LHHBBBBBbBBHH")`, in order. -/
structure BfeeHeader where
  timestamp_low : ℕ
  bfee_count : ℕ
  reserved : ℕ
  n_rx : ℕ
  n_tx : ℕ
  rssi_a : ℕ
  rssi_b : ℕ
  rssi_c : ℕ
  noise : ℤ
  agc : ℕ
  antenna_sel : ℕ
  payload_length : ℕ
  rate : ℕ
deriving DecidableEq

/-- `HEADER_STRUCT(block)`: little-endian unpack of 20 bytes; `struct.unpack`
raises when fewer than 20 bytes are supplied, modelled by `none`. -/
def parseHeader (b : List ℕ) : Option BfeeHeader :=
  if b.length < 20 then none
  else some
    { timestamp_low := getByte b 0 + 256 * getByte b 1 + 65536 * getByte b 2 +
        16777216 * getByte b 3
      bfee_count := getByte b 4 + 256 * getByte b 5
      reserved := getByte b 6 + 256 * getByte b 7
      n_rx := getByte b 8
      n_tx := getByte b 9
      rssi_a := getByte b 10
      rssi_b := getByte b 11
      rssi_c := getByte b 12
      noise := toInt8 (getByte b 13)
      agc := getByte b 14
      antenna_sel := getByte b 15
      payload_length := getByte b 16 + 256 * getByte b 17
      rate := getByte b 18 + 256 * getByte b 19 }

/-- Permutation derivation shared by `read_file` and `read_bf_entry`:
`perm = [0,1,2]`, overwritten from `antenna_sel` when `sum(perm) == n_rx`. -/
def derivePermutation (n_rx antenna_sel : ℕ) : List ℕ :=
  let perm : List ℕ := [0, 1, 2]
  if perm.sum = n_rx then
    [antenna_sel &&& 3, (antenna_sel >>> 2) &&& 3, (antenna_sel >>> 4) &&& 3]
  else perm

/-- `IWLBeamformReader.read_bfee` (unscaled path): reject the payload when the
header's `payload_length` differs from the actual byte count, otherwise run
the bit-cursor decode over the freshly allocated matrix `empty`. -/
def read_bfee (header : BfeeHeader) (data : List ℕ) (perm : List ℕ) (empty : Mat) :
    Option Mat :=
  if header.payload_length ≠ data.length then none
  else some (iLoop data perm header.n_rx header.n_tx 30 0 (empty, 0)).1

/-- `np.real(np.sum(np.multiply(csi, np.conj(csi))))` over the decoded integer
matrix: the real part of `v * conj v` is `re² + im²`. -/
def csiPwr (m : Mat) (n_rx n_tx : ℕ) : ℤ :=
  ((List.range 30).map (fun i =>
    ((List.range n_rx).map (fun j =>
      ((List.range n_tx).map (fun k =>
        (m i j k).1 * (m i j k).1 + (m i j k).2 * (m i j k).2)).sum)).sum)).sum

/-- `IWLBeamformReader.get_total_rss`.  Modelled from the spec: `db`/`dbinv`
come from `CSIKit.util.matlab` which is not under verification; the spec
describes them as an externally supplied dB/linear conversion pair, so they
are abstract parameters here. -/
def get_total_rss (db dbinv : ℚ → ℚ) (rssi_a rssi_b rssi_c agc : ℕ) : ℚ :=
  let m0 : ℚ := 0
  let m1 : ℚ := if rssi_a ≠ 0 then m0 + dbinv (rssi_a : ℚ) else m0
  let m2 : ℚ := if rssi_b ≠ 0 then m1 + dbinv (rssi_b : ℚ) else m1
  let m3 : ℚ := if rssi_c ≠ 0 then m2 + dbinv (rssi_c : ℚ) else m2
  db m3 - 44 - (agc : ℚ)

/-- The spec's wording for the total RSS: the dB value of the sum of the
linear conversions of exactly the non-zero readings, minus 44, minus agc. -/
def specTotalRss (db dbinv : ℚ → ℚ) (rssi_a rssi_b rssi_c agc : ℕ) : ℚ :=
  db ((([rssi_a, rssi_b, rssi_c].filter (fun x => x ≠ 0)).map
    (fun x => dbinv (x : ℚ))).sum) - 44 - (agc : ℚ)

/-- The claim C7 statement: the permutation is taken from `antenna_sel`
(2-bit fields at offsets 0, 2, 4) exactly when `n_rx = 3`, identity otherwise. -/
theorem claim_C7 (n_rx antenna_sel : ℕ) :
    derivePermutation n_rx antenna_sel =
      if n_rx = 3 then
        [antenna_sel &&& 3, (antenna_sel >>> 2) &&& 3, (antenna_sel >>> 4) &&& 3]
      else [0, 1, 2] := by
  unfold derivePermutation
  simp only [List.sum_cons, List.sum_nil]
  by_cases h : n_rx = 3 <;> simp [h]
  omega

/-- The claim C8 statement: for all readings, `get_total_rss` equals the dB of
the sum of the linear conversions of exactly the non-zero readings, minus the
calibration constant 44, minus agc. -/
theorem claim_C8 (db dbinv : ℚ → ℚ) (rssi_a rssi_b rssi_c agc : ℕ) :
    get_total_rss db dbinv rssi_a rssi_b rssi_c agc =
      specTotalRss db dbinv rssi_a rssi_b rssi_c agc := by
  unfold get_total_rss specTotalRss
  by_cases ha : rssi_a = 0 <;> by_cases hb : rssi_b = 0 <;> by_cases hc : rssi_c = 0 <;>
    simp [ha, hb, hc] <;> ring_nf

/-- Mutable state of the `read_file` scan loop: the byte cursor, the
`initial_timestamp` baseline, the accumulated frames and relative timestamps
of the `CSIData` container, and the attempted-record counter
`expected_frames`. -/
structure ScanState where
  cursor : ℕ
  baseline : ℚ
  frames : List (BfeeHeader × Mat)
  timestamps : List ℚ
  expected_frames : ℕ

/-- The record's declared size: `struct.Struct(">H")` at the cursor
(big-endian 16-bit). -/
def recSize (data : List ℕ) (cursor : ℕ) : ℕ :=
  256 * getByte data cursor + getByte data (cursor + 1)

/-- `all_block = data[cursor:cursor+size-1]` taken after `cursor += 3`. -/
def recBlock (data : List ℕ) (cursor : ℕ) : List ℕ :=
  (data.drop (cursor + 3)).take (recSize data cursor - 1)

/-- The CSI payload of a record: `all_block[20:]`. -/
def recPayload (data : List ℕ) (cursor : ℕ) : List ℕ :=
  (recBlock data cursor).drop 20

/-- The timestamp conversion factor used by the source, the float literal
`10e-7` (which is 10/10^7 = 1e-6, one microsecond per tick). -/
def tickScale : ℚ := 10 / 10000000

/-- One iteration of the `read_file` scan loop.  `mnew` models the contents of
the `np.empty` allocation handed to `read_bfee`.  The unpack error raised on a
header shorter than 20 bytes is `none`; the cursor advance
`cursor += 3; ...; cursor += size - 1` is written `cursor + 2 + size`, which
agrees with the Python integer arithmetic for every `size ≥ 0`. -/
def scanStep (mnew : Mat) (data : List ℕ) (s : ScanState) : Option ScanState :=
  let size := recSize data s.cursor
  let code := getByte data (s.cursor + 2)
  if code = 187 then
    match parseHeader ((recBlock data s.cursor).take 20) with
    | none => none
    | some hdr =>
      let perm := derivePermutation hdr.n_rx hdr.antenna_sel
      match read_bfee hdr (recPayload data s.cursor) perm mnew with
      | none =>
        some { s with cursor := s.cursor + 2 + size,
                      expected_frames := s.expected_frames + 1 }
      | some m =>
        let tsq := (hdr.timestamp_low : ℚ) * tickScale
        let baseline' := if s.baseline = 0 then tsq else s.baseline
        some { cursor := s.cursor + 2 + size
               baseline := baseline'
               frames := s.frames ++ [(hdr, m)]
               timestamps := s.timestamps ++ [tsq - baseline']
               expected_frames := s.expected_frames + 1 }
  else
    some { s with cursor := s.cursor + 2 + size,
                  expected_frames := s.expected_frames + 1 }

/-- The `while (length - cursor) > 100` loop.  Structural recursion on a fuel
argument; `read_file` passes `data.length + 1`, which can never be exhausted
because every iteration advances the cursor by at least 2
(see `scanLoop_fuel_irrelevant`). -/
def scanLoop (mnew : Mat) (data : List ℕ) : ℕ → ScanState → Option ScanState
  | 0, _ => none
  | fuel + 1, s =>
    if data.length - s.cursor > 100 then
      match scanStep mnew data s with
      | none => none
      | some s' => scanLoop mnew data fuel s'
    else some s

/-- `IWLBeamformReader.read_file` on an in-memory buffer (the container
bookkeeping that does not affect frames/timestamps/counters is omitted). -/
def read_file (mnew : Mat) (data : List ℕ) : Option ScanState :=
  scanLoop mnew data (data.length + 1) ⟨0, 0, [], [], 0⟩

/-- Timestamps of the emitted frames, in emission order. -/
def frameTsList (s : ScanState) : List ℕ :=
  s.frames.map (fun f => f.1.timestamp_low)

/-- The empty initial scan state of `read_file`. -/
def scan0 : ScanState := ⟨0, 0, [], [], 0⟩

/-- A 20-byte header block with the given timestamp, antenna counts and
payload length (all other fields zero), little-endian as in the wire format. -/
def mkHdr (ts nrx ntx plen : ℕ) : List ℕ :=
  [ts % 256, ts / 256 % 256, ts / 65536 % 256, ts / 16777216 % 256,
   0, 0, 0, 0, nrx, ntx, 0, 0, 0, 0, 0, 0, plen % 256, plen / 256 % 256, 0, 0]

/-- A well-formed wire record: declared size 99 (so 98 content bytes: 20-byte
header plus 78-byte payload), code 187, all-zero payload. -/
def mkRec (ts nrx ntx : ℕ) : List ℕ :=
  [0, 99, 187] ++ mkHdr ts nrx ntx 78 ++ List.replicate 78 0

/-- 102-byte buffer holding one valid-code record whose `payload_length` field
(77) differs from the actual payload byte count (78). -/
def bufC1 : List ℕ := ([0, 99, 187] ++ mkHdr 9 1 1 77 ++ List.replicate 78 0) ++ [0]

/-- The header parsed from `bufC1`. -/
def hdrC1 : BfeeHeader := ⟨9, 0, 0, 1, 1, 0, 0, 0, 0, 0, 0, 77, 0⟩

/-- 102-byte buffer whose single valid-code record declares size 200, which
would read far past the buffer end. -/
def bufC6past : List ℕ := [0, 200, 187] ++ List.replicate 99 0

/-- 102-byte buffer whose single valid-code record declares size 10, leaving
only 9 content bytes — fewer than the 20 a header needs. -/
def bufC6bad : List ℕ := [0, 10, 187] ++ List.replicate 99 0

/-- 102-byte buffer with one length-consistent record whose header says
`n_rx = 0`, `n_tx = 1`. -/
def bufC9 : List ℕ := mkRec 3 0 1 ++ [0]

/-- Length of `all_block`: the slice is clipped to the bytes that remain. -/
theorem recBlock_length (data : List ℕ) (c : ℕ) :
    (recBlock data c).length = min (recSize data c - 1) (data.length - (c + 3)) := by
  unfold recBlock
  simp [List.length_take]

/-- `struct.unpack` succeeds exactly on blocks of at least 20 bytes (the
callers always slice to at most 20). -/
theorem parseHeader_of_length {b : List ℕ} (hb : 20 ≤ b.length) :
    ∃ hdr, parseHeader b = some hdr := by
  unfold parseHeader
  rw [if_neg (by omega)]
  exact ⟨_, rfl⟩

/-- The claim C1 statement, at the level of one scan-loop iteration on a
valid-code record: a `payload_length` mismatch makes `read_bfee` return the
failure value and the record contributes no frame and no timestamp, while
`expected_frames` is still incremented; a matching `payload_length` decodes
to a matrix and the frame is appended. -/
theorem claim_C1 (mnew : Mat) (data : List ℕ) (s : ScanState) (hdr : BfeeHeader)
    (hcode : getByte data (s.cursor + 2) = 187)
    (hhdr : parseHeader ((recBlock data s.cursor).take 20) = some hdr) :
    (hdr.payload_length ≠ (recPayload data s.cursor).length →
      read_bfee hdr (recPayload data s.cursor)
          (derivePermutation hdr.n_rx hdr.antenna_sel) mnew = none ∧
      ∃ s', scanStep mnew data s = some s' ∧ s'.frames = s.frames ∧
        s'.timestamps = s.timestamps ∧
        s'.expected_frames = s.expected_frames + 1) ∧
    (hdr.payload_length = (recPayload data s.cursor).length →
      ∃ m s', read_bfee hdr (recPayload data s.cursor)
          (derivePermutation hdr.n_rx hdr.antenna_sel) mnew = some m ∧
        scanStep mnew data s = some s' ∧ s'.frames = s.frames ++ [(hdr, m)] ∧
        s'.expected_frames = s.expected_frames + 1) := by
  constructor
  · intro hne
    have hbf : read_bfee hdr (recPayload data s.cursor)
        (derivePermutation hdr.n_rx hdr.antenna_sel) mnew = none := by
      unfold read_bfee
      simp [hne]
    refine ⟨hbf, ?_⟩
    unfold scanStep
    simp only [hcode, if_pos rfl, hhdr, hbf]
    exact ⟨_, rfl, rfl, rfl, rfl⟩
  · intro heq
    have hbf : read_bfee hdr (recPayload data s.cursor)
        (derivePermutation hdr.n_rx hdr.antenna_sel) mnew =
        some (iLoop (recPayload data s.cursor)
          (derivePermutation hdr.n_rx hdr.antenna_sel) hdr.n_rx hdr.n_tx 30 0
          (mnew, 0)).1 := by
      unfold read_bfee
      simp [heq]
    unfold scanStep
    simp only [hcode, if_pos rfl, hhdr, hbf]
    exact ⟨_, _, rfl, rfl, rfl, rfl⟩

/-- Witness for C1 on `bufC1`: the mismatching record (field 77, actual 78)
is dropped but counted. -/
theorem claim_C1_witness :
    read_bfee hdrC1 (recPayload bufC1 scan0.cursor)
        (derivePermutation hdrC1.n_rx hdrC1.antenna_sel) matZero = none ∧
    ∃ s', scanStep matZero bufC1 scan0 = some s' ∧ s'.frames = scan0.frames ∧
      s'.timestamps = scan0.timestamps ∧
      s'.expected_frames = scan0.expected_frames + 1 :=
  (claim_C1 matZero bufC1 scan0 hdrC1 (by decide) (by decide)).1 (by decide)

/-- Amended claim C6: a valid-position record whose declared size would read
past the buffer end is processed without an unhandled error (the loop guard
leaves at least 98 content bytes, enough for the 20-byte header), and the
scan stops right after it because the cursor passes the end of the buffer.
(The original claim's further assertion — that no error ever escalates and an
all-invalid buffer always yields an empty output — fails on records with
declared size < 21, see `claim_C6_cex`.) -/
theorem claim_C6 (mnew : Mat) (data : List ℕ) (s : ScanState)
    (hguard : data.length - s.cursor > 100)
    (hpast : data.length < s.cursor + 2 + recSize data s.cursor) :
    ∃ s', scanStep mnew data s = some s' ∧ ¬ (data.length - s'.cursor > 100) := by
  have hstop : ∀ s' : ScanState, s'.cursor = s.cursor + 2 + recSize data s.cursor →
      ¬ (data.length - s'.cursor > 100) := by
    intro s' h
    omega
  by_cases hcode : getByte data (s.cursor + 2) = 187
  · have hblock : 20 ≤ ((recBlock data s.cursor).take 20).length := by
      have h1 := recBlock_length data s.cursor
      have h2 : (recBlock data s.cursor).length = data.length - (s.cursor + 3) := by
        omega
      simp only [List.length_take]
      omega
    obtain ⟨hdr, hh⟩ := parseHeader_of_length hblock
    unfold scanStep
    simp only [hcode, if_pos rfl, hh]
    rcases hbf : read_bfee hdr (recPayload data s.cursor)
        (derivePermutation hdr.n_rx hdr.antenna_sel) mnew with _ | m
    · exact ⟨_, rfl, hstop _ rfl⟩
    · exact ⟨_, rfl, hstop _ rfl⟩
  · unfold scanStep
    simp only [if_neg hcode]
    exact ⟨_, rfl, hstop _ rfl⟩

/-- Witness for the amended C6 on `bufC6past` (size 200 in a 102-byte
buffer). -/
theorem claim_C6_witness :
    ∃ s', scanStep matZero bufC6past scan0 = some s' ∧
      ¬ (bufC6past.length - s'.cursor > 100) :=
  claim_C6 matZero bufC6past scan0 (by decide) (by decide)

/-- Counterexample to C6 as stated: `bufC6bad` is an all-invalid buffer (its
single valid-code record declares size 10, so only 9 content bytes), and the
scan raises the header unpack error instead of returning an empty output
sequence. -/
theorem claim_C6_cex :
    (read_file matZero bufC6bad).map (fun r => r.frames.length) = none := by
  decide

/-- The claim C9 statement: `read_bfee` rejects a record only for a
`payload_length` mismatch — the raw 8-bit `n_rx`/`n_tx` header values are
never range-checked — and a record with `n_rx = 0` still yields a frame
(degenerate 30 × 0 × 1 matrix), as witnessed on `bufC9`. -/
theorem claim_C9 :
    (∀ (h : BfeeHeader) (data perm : List ℕ) (empty : Mat),
      read_bfee h data perm empty = none ↔ h.payload_length ≠ data.length) ∧
    (read_file matZero bufC9).map
      (fun r => r.frames.map (fun f => (f.1.n_rx, f.1.n_tx))) = some [(0, 1)] ∧
    (read_file matZero bufC9).map (fun r => r.expected_frames) = some 1 := by
  refine ⟨?_, by decide, by decide⟩
  intro h data perm empty
  unfold read_bfee
  by_cases hl : h.payload_length = data.length <;> simp [hl]

/-- The header of the C5 failing input: `n_rx = n_tx = 1`,
`payload_length = 10`, all RSSI fields zero. -/
def hdrC5 : BfeeHeader := ⟨0, 0, 0, 1, 1, 0, 0, 0, 0, 0, 0, 10, 0⟩

/-- The denominator `csi_pwr / 30` of `scale = rssi_pwr / (csi_pwr / 30)` in
`scale_csi_entry`; the source has no branch on `csi_pwr == 0`. -/
def scaleDenom (m : Mat) (n_rx n_tx : ℕ) : ℚ :=
  (csiPwr m n_rx n_tx : ℚ) / 30

set_option maxRecDepth 40000 in
/-- C5 failing input evaluated: the all-zero 10-byte payload with
`n_rx = n_tx = 1` decodes to a matrix of zero CSI power, so the `scale`
computed by `scale_csi_entry` divides by zero — there is no guard on
`csi_power == 0` in the source, contrary to the claim. -/
theorem claim_C5 :
    (read_bfee hdrC5 (List.replicate 10 0)
        (derivePermutation hdrC5.n_rx hdrC5.antenna_sel) matZero).map
      (fun m => (csiPwr m hdrC5.n_rx hdrC5.n_tx,
                 scaleDenom m hdrC5.n_rx hdrC5.n_tx)) = some (0, 0) := by
  have h : (read_bfee hdrC5 (List.replicate 10 0)
      (derivePermutation hdrC5.n_rx hdrC5.antenna_sel) matZero).map
      (fun m => csiPwr m hdrC5.n_rx hdrC5.n_tx) = some 0 := by decide
  obtain ⟨m, hm, hpwr⟩ := Option.map_eq_some'.mp h
  rw [hm]
  simp only [Option.map_some']
  unfold scaleDenom
  rw [hpwr]
  norm_num

/-- Baseline evolution of `initial_timestamp` in timestamp-tick units: the
baseline keeps its value once non-zero, else adopts the next frame's
timestamp. -/
def fnzAux (base : ℕ) : List ℕ → ℕ
  | [] => base
  | t :: rest => fnzAux (if base ≠ 0 then base else t) rest

/-- Relative timestamps appended for a run of emitted frame timestamps,
starting from a baseline (in ticks): each frame is measured against the
baseline in force after the baseline update for that frame. -/
def relSpecAux (base : ℕ) : List ℕ → List ℚ
  | [] => []
  | t :: rest =>
    ((t : ℚ) * tickScale -
      ((if base ≠ 0 then base else t : ℕ) : ℚ) * tickScale) ::
      relSpecAux (if base ≠ 0 then base else t) rest

/-- Relative timestamps of a frame run as measured against the fixed
baseline frame timestamp `base`. -/
def relFormula (base : ℕ) (l : List ℕ) : List ℚ :=
  l.map (fun x => (x : ℚ) * tickScale - (base : ℚ) * tickScale)

/-- The scan-loop invariant tying the mutable `initial_timestamp` and the
accumulated relative timestamps to the emitted frames' `timestamp_low`s. -/
def scanInv (s : ScanState) : Prop :=
  s.baseline = ((fnzAux 0 (frameTsList s) : ℕ) : ℚ) * tickScale ∧
  s.timestamps = relSpecAux 0 (frameTsList s)

theorem tickScale_ne_zero : tickScale ≠ 0 := by
  norm_num [tickScale]

theorem fnzAux_append (base t : ℕ) (l : List ℕ) :
    fnzAux base (l ++ [t]) =
      (if fnzAux base l ≠ 0 then fnzAux base l else t) := by
  induction l generalizing base with
  | nil => simp [fnzAux]
  | cons x xs ih =>
    show fnzAux _ (xs ++ [t]) = _
    rw [ih]
    rfl

theorem relSpecAux_append (base t : ℕ) (l : List ℕ) :
    relSpecAux base (l ++ [t]) =
      relSpecAux base l ++
        [(t : ℚ) * tickScale -
          ((if fnzAux base l ≠ 0 then fnzAux base l else t : ℕ) : ℚ) * tickScale] := by
  induction l generalizing base with
  | nil => simp [relSpecAux, fnzAux]
  | cons x xs ih =>
    show _ :: relSpecAux _ (xs ++ [t]) = _
    rw [ih]
    rfl

theorem relSpecAux_concat (base : ℕ) (l1 l2 : List ℕ) :
    relSpecAux base (l1 ++ l2) =
      relSpecAux base l1 ++ relSpecAux (fnzAux base l1) l2 := by
  induction l1 generalizing base with
  | nil => simp [relSpecAux, fnzAux]
  | cons x xs ih =>
    show _ :: relSpecAux _ (xs ++ l2) = _
    rw [ih]
    rfl

theorem fnzAux_replicate (b : ℕ) : fnzAux 0 (List.replicate b 0) = 0 := by
  induction b with
  | zero => rfl
  | succ n ih => simpa [List.replicate_succ, fnzAux] using ih

theorem relSpecAux_replicate (b : ℕ) :
    relSpecAux 0 (List.replicate b 0) = List.replicate b (0 : ℚ) := by
  induction b with
  | zero => rfl
  | succ n ih => simp [List.replicate_succ, relSpecAux, ih]

theorem relSpecAux_base_ne (base : ℕ) (hb : base ≠ 0) (l : List ℕ) :
    relSpecAux base l = relFormula base l := by
  induction l with
  | nil => rfl
  | cons x xs ih => simp [relSpecAux, relFormula, hb, ih]

theorem scanStep_inv {mnew : Mat} {data : List ℕ} {s s' : ScanState}
    (h : scanStep mnew data s = some s') (hs : scanInv s) : scanInv s' := by
  unfold scanStep at h
  by_cases hcode : getByte data (s.cursor + 2) = 187
  · simp only [hcode, if_pos rfl] at h
    rcases hph : parseHeader ((recBlock data s.cursor).take 20) with _ | hdr
    · simp [hph] at h
    · simp only [hph] at h
      rcases hbf : read_bfee hdr (recPayload data s.cursor)
          (derivePermutation hdr.n_rx hdr.antenna_sel) mnew with _ | m
      · simp only [hbf] at h
        cases h
        exact hs
      · simp only [hbf] at h
        cases h
        obtain ⟨hs1, hs2⟩ := hs
        unfold scanInv frameTsList at *
        simp only [List.map_append, List.map_cons, List.map_nil]
        rw [fnzAux_append, relSpecAux_append, ← hs2]
        by_cases hz : fnzAux 0 (s.frames.map (fun f => f.1.timestamp_low)) = 0
        · have hb0 : s.baseline = 0 := by
            rw [hs1, hz]
            simp
          rw [hz]
          simp only [ne_eq, not_true_eq_false, if_neg, hb0, if_pos rfl,
            not_not, ite_false, ite_true]
          exact ⟨trivial, trivial⟩
        · have hb0 : s.baseline ≠ 0 := by
            rw [hs1]
            exact mul_ne_zero (Nat.cast_ne_zero.mpr hz) tickScale_ne_zero
          rw [if_pos hz, if_neg hb0, hs1]
          exact ⟨rfl, rfl⟩
  · simp only [hcode, if_neg hcode] at h
    cases h
    exact hs

theorem scanLoop_inv {mnew : Mat} {data : List ℕ} :
    ∀ (fuel : ℕ) (s res : ScanState), scanInv s →
      scanLoop mnew data fuel s = some res → scanInv res := by
  intro fuel
  induction fuel with
  | zero => intro s res _ h; cases h
  | succ n ih =>
    intro s res hs h
    unfold scanLoop at h
    by_cases hg : data.length - s.cursor > 100
    · rw [if_pos hg] at h
      rcases hst : scanStep mnew data s with _ | s1
      · rw [hst] at h
        cases h
      · rw [hst] at h
        exact ih s1 res (scanStep_inv hst hs) h
    · rw [if_neg hg] at h
      cases h
      exact hs

theorem read_file_inv {mnew : Mat} {data : List ℕ} {res : ScanState}
    (h : read_file mnew data = some res) : scanInv res := by
  refine scanLoop_inv (data.length + 1) scan0 res ?_ h
  constructor <;> simp [scan0, frameTsList, fnzAux, relSpecAux]

/-- 202-byte buffer with two length-consistent records, timestamps 1 and 2. -/
def bufC3 : List ℕ := mkRec 1 1 1 ++ mkRec 2 1 1

/-- 303-byte buffer with three length-consistent records, timestamps 0, 5, 7:
the first emitted frame has timestamp_low 0. -/
def bufC10 : List ℕ := mkRec 0 1 1 ++ mkRec 5 1 1 ++ mkRec 7 1 1

set_option maxRecDepth 40000 in
/-- Counterexample to C3 as stated: on `bufC3` (frame timestamps 1 and 2) the
second relative timestamp produced by the scan is `1/1000000` — the code
multiplies `timestamp_low` by the literal `10e-7` = 1e-6 — which differs from
the claimed `2 × 1e-7 − 1 × 1e-7`. -/
theorem claim_C3_cex :
    (read_file matZero bufC3).map (fun r => r.timestamps) = some [0, 1/1000000] ∧
    ((1 : ℚ)/1000000) ≠ (2 : ℚ) * (1/10000000) - (1 : ℚ) * (1/10000000) := by
  constructor
  · have h1 : (read_file matZero bufC3).map frameTsList = some [1, 2] := by decide
    obtain ⟨res, hres, hfl⟩ := Option.map_eq_some'.mp h1
    obtain ⟨-, h2⟩ := read_file_inv hres
    rw [hfl] at h2
    rw [hres]
    simp only [Option.map_some']
    congr 1
    rw [h2]
    norm_num [relSpecAux, tickScale]
  · norm_num

/-- Amended claim C3: when the first emitted frame's `timestamp_low` is
non-zero, every emitted frame's relative timestamp equals its
`timestamp_low` times `10e-7` = 1e-6 seconds (a 1 µs tick, not the claimed
100 ns) minus the first emitted frame's `timestamp_low` times the same
factor. -/
theorem claim_C3 (mnew : Mat) (data : List ℕ) (t : ℕ) (rest : List ℕ)
    (hts : (read_file mnew data).map frameTsList = some (t :: rest))
    (ht : t ≠ 0) :
    (read_file mnew data).map (fun r => r.timestamps) =
      some (relFormula t (t :: rest)) := by
  obtain ⟨res, hres, hfl⟩ := Option.map_eq_some'.mp hts
  obtain ⟨-, h2⟩ := read_file_inv hres
  rw [hres]
  rw [hfl] at h2
  simp only [Option.map_some']
  congr 1
  rw [h2]
  show relSpecAux 0 (t :: rest) = _
  simp [relSpecAux, relSpecAux_base_ne t ht rest, relFormula]

set_option maxRecDepth 40000 in
/-- Witness for the amended C3 on `bufC3`: frame timestamps are `[1, 2]`, the
first is non-zero, and the relative timestamps are
`[1·1e-6 − 1·1e-6, 2·1e-6 − 1·1e-6]`. -/
theorem claim_C3_witness :
    (read_file matZero bufC3).map (fun r => r.timestamps) =
      some (relFormula 1 ((1 : ℕ) :: [2])) :=
  claim_C3 matZero bufC3 1 [2] (by decide) (by decide)

/-- The claim C10 statement: the baseline is re-examined on every emitted
frame while it is still 0, so when the leading emitted frames all have
`timestamp_low = 0`, the baseline is taken from the first frame with a
non-zero timestamp; the leading frames receive relative timestamp 0 and all
later frames are measured relative to that baseline frame. -/
theorem claim_C10 (mnew : Mat) (data : List ℕ) (b t : ℕ) (rest : List ℕ)
    (hts : (read_file mnew data).map frameTsList =
      some (List.replicate b 0 ++ t :: rest))
    (ht : t ≠ 0) :
    (read_file mnew data).map (fun r => r.timestamps) =
      some (List.replicate b (0 : ℚ) ++ relFormula t (t :: rest)) := by
  obtain ⟨res, hres, hfl⟩ := Option.map_eq_some'.mp hts
  obtain ⟨-, h2⟩ := read_file_inv hres
  rw [hres]
  rw [hfl] at h2
  simp only [Option.map_some']
  congr 1
  rw [h2, relSpecAux_concat, fnzAux_replicate, relSpecAux_replicate]
  congr 1
  show relSpecAux 0 (t :: rest) = _
  simp [relSpecAux, relSpecAux_base_ne t ht rest, relFormula]

set_option maxRecDepth 40000 in
/-- Witness for C10 on `bufC10`: frame timestamps are `[0, 5, 7]`; the
baseline comes from the second frame (the first non-zero one), the first
frame gets relative timestamp 0, and the third is measured against the
second. -/
theorem claim_C10_witness :
    (read_file matZero bufC10).map (fun r => r.timestamps) =
      some (List.replicate 1 (0 : ℚ) ++ relFormula 5 ((5 : ℕ) :: [7])) :=
  claim_C10 matZero bufC10 1 5 [7] (by decide) (by decide)

/-- Value of a bit list read LSB-first. -/
def byteOfBits (l : List Bool) : ℕ :=
  l.foldr (fun b acc => 2 * acc + (if b then 1 else 0)) 0

/-- Pack a bit stream (LSB-first within each byte) into bytes; a trailing
partial byte is zero-padded. -/
def bitsToBytes : List Bool → List ℕ
  | [] => []
  | b0 :: b1 :: b2 :: b3 :: b4 :: b5 :: b6 :: b7 :: rest =>
    byteOfBits [b0, b1, b2, b3, b4, b5, b6, b7] :: bitsToBytes rest
  | l => [byteOfBits l]

theorem byteOfBits_testBit (l : List Bool) (b : ℕ) :
    (byteOfBits l).testBit b = l.getD b false := by
  induction l generalizing b with
  | nil => simp [byteOfBits]
  | cons x xs ih =>
    have hfold : byteOfBits (x :: xs) =
        2 * byteOfBits xs + (if x then 1 else 0) := rfl
    cases b with
    | zero =>
      rw [hfold, Nat.testBit_zero]
      cases x <;> simp <;> omega
    | succ n =>
      rw [hfold, Nat.testBit_add_one,
        show (2 * byteOfBits xs + (if x then 1 else 0)) / 2 = byteOfBits xs from by
          cases x <;> simp <;> omega]
      exact ih n

theorem byteOfBits_lt (l : List Bool) : byteOfBits l < 2 ^ l.length := by
  induction l with
  | nil => simp [byteOfBits]
  | cons x xs ih =>
    have hfold : byteOfBits (x :: xs) =
        2 * byteOfBits xs + (if x then 1 else 0) := rfl
    rw [hfold]
    simp only [List.length_cons, pow_succ]
    cases x <;> simp <;> omega

theorem getD_cons_add_eight {α : Type} (b0 b1 b2 b3 b4 b5 b6 b7 : α)
    (rest : List α) (m : ℕ) (d : α) :
    (b0 :: b1 :: b2 :: b3 :: b4 :: b5 :: b6 :: b7 :: rest).getD (m + 8) d =
      rest.getD m d := by
  rw [show m + 8 = (((((((m + 1) + 1) + 1) + 1) + 1) + 1) + 1) + 1 from by omega]
  simp only [List.getD_cons_succ]

theorem getD_eq_default_of_le {α : Type} (l : List α) (n : ℕ) (d : α)
    (h : l.length ≤ n) : l.getD n d = d := by
  rw [List.getD_eq_getElem?_getD, List.getElem?_eq_none (by omega)]
  rfl

/-- Bit `b` of byte `n` of the packed stream is bit `8·n + b` of the stream. -/
theorem bitsToBytes_spec :
    ∀ (n : ℕ) (bs : List Bool) (b : ℕ), b < 8 →
      ((bitsToBytes bs).getD n 0).testBit b = bs.getD (8 * n + b) false := by
  intro n
  induction n with
  | zero =>
    intro bs b hb
    rcases bs with _ | ⟨b0, _ | ⟨b1, _ | ⟨b2, _ | ⟨b3, _ | ⟨b4, _ | ⟨b5, _ |
      ⟨b6, _ | ⟨b7, rest⟩⟩⟩⟩⟩⟩⟩⟩
    · simp [bitsToBytes]
    · simpa using byteOfBits_testBit [b0] b
    · simpa using byteOfBits_testBit [b0, b1] b
    · simpa using byteOfBits_testBit [b0, b1, b2] b
    · simpa using byteOfBits_testBit [b0, b1, b2, b3] b
    · simpa using byteOfBits_testBit [b0, b1, b2, b3, b4] b
    · simpa using byteOfBits_testBit [b0, b1, b2, b3, b4, b5] b
    · simpa using byteOfBits_testBit [b0, b1, b2, b3, b4, b5, b6] b
    · show (byteOfBits [b0, b1, b2, b3, b4, b5, b6, b7]).testBit b = _
      rw [byteOfBits_testBit]
      interval_cases b <;> rfl
  | succ n ih =>
    intro bs b hb
    rcases bs with _ | ⟨b0, _ | ⟨b1, _ | ⟨b2, _ | ⟨b3, _ | ⟨b4, _ | ⟨b5, _ |
      ⟨b6, _ | ⟨b7, rest⟩⟩⟩⟩⟩⟩⟩⟩
    · simp [bitsToBytes]
    · simp [bitsToBytes, Nat.zero_testBit,
        List.getElem?_eq_none (show ([b0] : List Bool).length ≤ 8 * (n + 1) + b from by simp; omega)]
    · simp [bitsToBytes, Nat.zero_testBit,
        List.getElem?_eq_none (show ([b0, b1] : List Bool).length ≤ 8 * (n + 1) + b from by simp; omega)]
    · simp [bitsToBytes, Nat.zero_testBit,
        List.getElem?_eq_none (show ([b0, b1, b2] : List Bool).length ≤ 8 * (n + 1) + b from by simp; omega)]
    · simp [bitsToBytes, Nat.zero_testBit,
        List.getElem?_eq_none (show ([b0, b1, b2, b3] : List Bool).length ≤ 8 * (n + 1) + b from by simp; omega)]
    · simp [bitsToBytes, Nat.zero_testBit,
        List.getElem?_eq_none (show ([b0, b1, b2, b3, b4] : List Bool).length ≤ 8 * (n + 1) + b from by simp; omega)]
    · simp [bitsToBytes, Nat.zero_testBit,
        List.getElem?_eq_none (show ([b0, b1, b2, b3, b4, b5] : List Bool).length ≤ 8 * (n + 1) + b from by simp; omega)]
    · simp [bitsToBytes, Nat.zero_testBit,
        List.getElem?_eq_none (show ([b0, b1, b2, b3, b4, b5, b6] : List Bool).length ≤ 8 * (n + 1) + b from by simp; omega)]
    · show ((bitsToBytes rest).getD n 0).testBit b = _
      rw [ih rest b hb, show 8 * (n + 1) + b = (8 * n + b) + 8 from by ring,
        getD_cons_add_eight]


theorem singleton_byte_getD_lt {l : List Bool} (hlen : l.length ≤ 8) (n : ℕ) :
    ([byteOfBits l]).getD n 0 < 256 := by
  cases n with
  | zero =>
    have h := byteOfBits_lt l
    have h2 : (2 : ℕ) ^ l.length ≤ 2 ^ 8 := Nat.pow_le_pow_right (by omega) hlen
    simp only [List.getD_cons_zero]
    omega
  | succ n => simp

theorem bitsToBytes_getD_lt (bs : List Bool) : ∀ (n : ℕ),
    (bitsToBytes bs).getD n 0 < 256 := by
  induction bs using bitsToBytes.induct with
  | case1 => intro n; simp [bitsToBytes]
  | case2 b0 b1 b2 b3 b4 b5 b6 b7 rest ih =>
    intro n
    cases n with
    | zero =>
      show byteOfBits [b0, b1, b2, b3, b4, b5, b6, b7] < 256
      have h := byteOfBits_lt [b0, b1, b2, b3, b4, b5, b6, b7]
      simp at h
      omega
    | succ n => exact ih n
  | case3 l h1 h2 =>
    intro n
    rcases l with _ | ⟨b0, _ | ⟨b1, _ | ⟨b2, _ | ⟨b3, _ | ⟨b4, _ | ⟨b5, _ |
      ⟨b6, _ | ⟨b7, rest⟩⟩⟩⟩⟩⟩⟩⟩
    · exact absurd rfl h1
    · exact singleton_byte_getD_lt (by simp) n
    · exact singleton_byte_getD_lt (by simp) n
    · exact singleton_byte_getD_lt (by simp) n
    · exact singleton_byte_getD_lt (by simp) n
    · exact singleton_byte_getD_lt (by simp) n
    · exact singleton_byte_getD_lt (by simp) n
    · exact singleton_byte_getD_lt (by simp) n
    · exact absurd rfl (h2 b0 b1 b2 b3 b4 b5 b6 b7 rest)

theorem bitsToBytes_length (bs : List Bool) :
    (bitsToBytes bs).length = (bs.length + 7) / 8 := by
  induction bs using bitsToBytes.induct with
  | case1 => rfl
  | case2 b0 b1 b2 b3 b4 b5 b6 b7 rest ih =>
    show (byteOfBits _ :: bitsToBytes rest).length = _
    simp only [List.length_cons, ih, List.length_cons]
    omega
  | case3 l h1 h2 =>
    rcases l with _ | ⟨b0, _ | ⟨b1, _ | ⟨b2, _ | ⟨b3, _ | ⟨b4, _ | ⟨b5, _ |
      ⟨b6, _ | ⟨b7, rest⟩⟩⟩⟩⟩⟩⟩⟩
    · exact absurd rfl h1
    · simp [bitsToBytes]
    · simp [bitsToBytes]
    · simp [bitsToBytes]
    · simp [bitsToBytes]
    · simp [bitsToBytes]
    · simp [bitsToBytes]
    · simp [bitsToBytes]
    · exact absurd rfl (h2 b0 b1 b2 b3 b4 b5 b6 b7 rest)

/-- The byte whose LSB sits at bit position `p` of the stream. -/
def specByteAt (bs : List Bool) (p : ℕ) : ℕ :=
  byteOfBits ((List.range 8).map (fun t => bs.getD (p + t) false))

theorem specByteAt_testBit (bs : List Bool) (p b : ℕ) :
    (specByteAt bs p).testBit b =
      if b < 8 then bs.getD (p + b) false else false := by
  unfold specByteAt
  rw [byteOfBits_testBit]
  by_cases hb : b < 8
  · rw [if_pos hb, List.getD_eq_getElem?_getD, List.getElem?_map,
      List.getElem?_range hb]
    rfl
  · rw [if_neg hb, getD_eq_default_of_le _ _ _ (by simp; omega)]

theorem specByteAt_lt (bs : List Bool) (p : ℕ) : specByteAt bs p < 256 := by
  have h := byteOfBits_lt ((List.range 8).map (fun t => bs.getD (p + t) false))
  simpa [specByteAt] using h

theorem toInt8_mod (x : ℕ) : toInt8 (x % 256) = toInt8 x := by
  unfold toInt8
  rw [Nat.mod_mod_of_dvd _ (dvd_refl 256)]

/-- The source's two-byte shift-and-or extraction, applied to a packed bit
stream, reads exactly the 8 bits starting at stream position
`8·ind8 + rem`. -/
theorem extractByte_bits (bs : List Bool) (ind8 rem : ℕ) (hrem : rem < 8) :
    extractByte (bitsToBytes bs) ind8 rem =
      toInt8 (specByteAt bs (8 * ind8 + rem)) := by
  unfold extractByte
  have hmod : ((getByte (bitsToBytes bs) ind8 >>> rem) |||
      (getByte (bitsToBytes bs) (ind8 + 1) <<< (8 - rem))) % 256 =
      specByteAt bs (8 * ind8 + rem) := by
    apply Nat.eq_of_testBit_eq
    intro t
    rw [show (256 : ℕ) = 2 ^ 8 from rfl, Nat.testBit_mod_two_pow,
      specByteAt_testBit]
    by_cases ht : t < 8
    · simp only [ht, decide_True, Bool.true_and, if_pos ht]
      rw [Nat.testBit_or, Nat.testBit_shiftRight, Nat.testBit_shiftLeft]
      unfold getByte
      by_cases hcase : t < 8 - rem
      · have h1 : rem + t < 8 := by omega
        rw [bitsToBytes_spec ind8 bs (rem + t) h1]
        have h2 : ¬ (8 - rem ≤ t) := by omega
        simp only [ge_iff_le, h2, decide_False, Bool.false_and, Bool.or_false]
        rw [show 8 * ind8 + (rem + t) = 8 * ind8 + rem + t from by ring]
        simp
      · have h1 : 8 ≤ rem + t := by omega
        have hlow : ((bitsToBytes bs).getD ind8 0).testBit (rem + t) = false := by
          refine Nat.testBit_lt_two_pow ?_
          calc (bitsToBytes bs).getD ind8 0 < 256 := bitsToBytes_getD_lt bs ind8
            _ = 2 ^ 8 := rfl
            _ ≤ 2 ^ (rem + t) := Nat.pow_le_pow_right (by omega) h1
        rw [hlow]
        have h2 : 8 - rem ≤ t := by omega
        simp only [ge_iff_le, h2, decide_True, Bool.true_and, Bool.false_or]
        rw [bitsToBytes_spec (ind8 + 1) bs (t - (8 - rem)) (by omega)]
        rw [show 8 * (ind8 + 1) + (t - (8 - rem)) = 8 * ind8 + rem + t from by
          omega]
        simp
    · simp [ht]
  rw [← toInt8_mod, hmod]

theorem getD_append_left {α : Type} (l1 l2 : List α) (n : ℕ) (d : α)
    (h : n < l1.length) : (l1 ++ l2).getD n d = l1.getD n d := by
  rw [List.getD_eq_getElem?_getD, List.getD_eq_getElem?_getD,
    List.getElem?_append_left h]

theorem getD_append_right {α : Type} (l1 l2 : List α) (n : ℕ) (d : α)
    (h : l1.length ≤ n) : (l1 ++ l2).getD n d = l2.getD (n - l1.length) d := by
  rw [List.getD_eq_getElem?_getD, List.getD_eq_getElem?_getD,
    List.getElem?_append_right h]

theorem pair_index_lt {a A b B : ℕ} (ha : a < A) (hb : b < B) :
    B * a + b < B * A :=
  calc B * a + b < B * a + B := by omega
    _ = B * (a + 1) := by ring
    _ ≤ B * A := Nat.mul_le_mul_left B (by omega)

theorem flatMap_range_length {α : Type} (n L : ℕ) (f : ℕ → List α)
    (hf : ∀ i < n, (f i).length = L) :
    ((List.range n).flatMap f).length = n * L := by
  induction n with
  | zero => simp
  | succ m ih =>
    rw [List.range_succ, List.flatMap_append]
    simp only [List.length_append, ih (fun i hi => hf i (by omega))]
    simp [hf m (by omega)]
    ring

theorem flatMap_range_getD {α : Type} (d : α) (n L : ℕ) (f : ℕ → List α)
    (hf : ∀ i < n, (f i).length = L) (i r : ℕ) (hi : i < n) (hr : r < L) :
    ((List.range n).flatMap f).getD (L * i + r) d = (f i).getD r d := by
  induction n with
  | zero => omega
  | succ m ih =>
    rw [List.range_succ, List.flatMap_append]
    have hlen : ((List.range m).flatMap f).length = m * L :=
      flatMap_range_length m L f (fun j hj => hf j (by omega))
    by_cases him : i < m
    · rw [getD_append_left _ _ _ _ (by
        rw [hlen, Nat.mul_comm m L]
        exact pair_index_lt him hr)]
      exact ih (fun j hj => hf j (by omega)) him
    · have hieq : i = m := by omega
      subst hieq
      rw [getD_append_right _ _ _ _ (by
        rw [hlen, Nat.mul_comm]
        exact Nat.le_add_right _ _)]
      rw [hlen, show L * i + r - i * L = r from by
        rw [Nat.mul_comm]
        omega]
      simp

/-- The 8 bits, LSB first, of the two's-complement byte encoding of `v`. -/
def int8Bits (v : ℤ) : List Bool :=
  (List.range 8).map (fun b => ((v % 256).toNat).testBit b)

/-- The 16 bits of one antenna-pair sample: real byte then imaginary byte. -/
def pairBits (v : ℤ × ℤ) : List Bool := int8Bits v.1 ++ int8Bits v.2

/-- A synthetic payload with the vendor bit-packing: for each of the 30
subcarriers, 3 filler bits (the skipped per-subcarrier exponent field)
followed by the `n_rx · n_tx` 16-bit complex samples in (j, k) order. -/
def payloadBits (n_rx n_tx : ℕ) (vals : ℕ → ℕ → ℕ → ℤ × ℤ) : List Bool :=
  (List.range 30).flatMap (fun i =>
    [false, false, false] ++
    (List.range n_rx).flatMap (fun j =>
      (List.range n_tx).flatMap (fun k => pairBits (vals i j k))))

/-- The synthetic payload as bytes. -/
def encodePayload (n_rx n_tx : ℕ) (vals : ℕ → ℕ → ℕ → ℤ × ℤ) : List ℕ :=
  bitsToBytes (payloadBits n_rx n_tx vals)

theorem int8Bits_length (v : ℤ) : (int8Bits v).length = 8 := by
  simp [int8Bits]

theorem pairBits_length (v : ℤ × ℤ) : (pairBits v).length = 16 := by
  simp [pairBits, int8Bits]

theorem innerBits_length (n_rx n_tx : ℕ) (vals : ℕ → ℕ → ℕ → ℤ × ℤ) (i : ℕ) :
    (List.flatMap (List.range n_rx) (fun j =>
      (List.range n_tx).flatMap (fun k => pairBits (vals i j k)))).length =
      n_rx * (n_tx * 16) :=
  flatMap_range_length n_rx (n_tx * 16) _
    (fun j _ => flatMap_range_length n_tx 16 _ (fun k _ => pairBits_length _))

theorem payloadBits_length (n_rx n_tx : ℕ) (vals : ℕ → ℕ → ℕ → ℤ × ℤ) :
    (payloadBits n_rx n_tx vals).length = 30 * (3 + n_rx * (n_tx * 16)) := by
  unfold payloadBits
  refine flatMap_range_length 30 _ _ (fun i _ => ?_)
  simp [innerBits_length n_rx n_tx vals i]
  omega

theorem payloadBits_getD (n_rx n_tx : ℕ) (vals : ℕ → ℕ → ℕ → ℤ × ℤ)
    (i j k t : ℕ) (hi : i < 30) (hj : j < n_rx) (hk : k < n_tx) (ht : t < 16) :
    (payloadBits n_rx n_tx vals).getD
      ((3 + n_rx * (n_tx * 16)) * i + (3 + ((n_tx * 16) * j + (16 * k + t))))
      false = (pairBits (vals i j k)).getD t false := by
  unfold payloadBits
  have hkt : 16 * k + t < n_tx * 16 := by
    rw [Nat.mul_comm n_tx 16]
    exact pair_index_lt hk ht
  have hjkt : (n_tx * 16) * j + (16 * k + t) < n_rx * (n_tx * 16) := by
    rw [Nat.mul_comm n_rx (n_tx * 16)]
    exact pair_index_lt hj hkt
  rw [flatMap_range_getD false 30 _ _
    (fun x _ => by
      simp [innerBits_length n_rx n_tx vals x]
      omega) i _ hi (by omega)]
  rw [show (3 : ℕ) + ((n_tx * 16) * j + (16 * k + t)) =
    ([false, false, false] : List Bool).length + ((n_tx * 16) * j + (16 * k + t))
    from by simp]
  rw [getD_append_right _ _ _ _ (by omega), Nat.add_sub_cancel_left]
  rw [flatMap_range_getD false n_rx (n_tx * 16) _
    (fun x _ => flatMap_range_length n_tx 16 _ (fun y _ => pairBits_length _))
    j _ hj hkt]
  rw [flatMap_range_getD false n_tx 16 _ (fun y _ => pairBits_length _) k t hk ht]

set_option maxRecDepth 4000 in
theorem byteOfBits_of_testBit :
    ∀ n, n < 256 → byteOfBits ((List.range 8).map n.testBit) = n := by
  decide

theorem toInt8_int8Bits (v : ℤ) (h1 : -128 ≤ v) (h2 : v ≤ 127) :
    toInt8 (byteOfBits (int8Bits v)) = v := by
  have hn : (v % 256).toNat < 256 := by omega
  have hb : byteOfBits (int8Bits v) = (v % 256).toNat :=
    byteOfBits_of_testBit _ hn
  rw [hb]
  unfold toInt8
  rw [Nat.mod_eq_of_lt hn]
  split_ifs with h
  · omega
  · omega

theorem specByteAt_eq_byteOfBits {bs : List Bool} {p : ℕ} {g : List Bool}
    (hg : g.length = 8) (h : ∀ t, t < 8 → bs.getD (p + t) false = g.getD t false) :
    specByteAt bs p = byteOfBits g := by
  unfold specByteAt
  congr 1
  apply List.ext_getElem
  · simp [hg]
  · intro t h1 h2
    have ht : t < 8 := by simpa using h1
    have heq := h t ht
    simp only [List.getElem_map, List.getElem_range]
    rw [heq, List.getD_eq_getElem?_getD, List.getElem?_eq_getElem h2]
    rfl

/-- The pair of components the decoder extracts at bit position `idx`
(the subcarrier remainder always equals `idx % 8` at extraction time). -/
def extractAt (data : List ℕ) (idx : ℕ) : ℤ × ℤ :=
  (extractByte data (idx / 8) (idx % 8), extractByte data (idx / 8 + 1) (idx % 8))

/-- How many of the next `c` samples at positions `idx, idx+16, …` pass the
`ind8 + 2 >= len(data)` truncation guard before the first failure. -/
def numW (len : ℕ) : ℕ → ℕ → ℕ
  | _, 0 => 0
  | idx, c + 1 => if idx / 8 + 2 < len then numW len (idx + 16) c + 1 else 0

theorem numW_succ (len idx c : ℕ) :
    numW len idx (c + 1) =
      if idx / 8 + 2 < len then numW len (idx + 16) c + 1 else 0 := rfl

theorem numW_le (len : ℕ) : ∀ (c idx : ℕ), numW len idx c ≤ c := by
  intro c
  induction c with
  | zero => intro idx; simp [numW]
  | succ c ih =>
    intro idx
    rw [numW_succ]
    split_ifs
    · exact Nat.succ_le_succ (ih (idx + 16))
    · omega

theorem numW_zero (len idx c : ℕ) (h : ¬ (idx / 8 + 2 < len)) :
    numW len idx c = 0 := by
  cases c <;> simp [numW, h]

theorem numW_written (len : ℕ) : ∀ (c idx q : ℕ), q < numW len idx c →
    (idx + 16 * q) / 8 + 2 < len := by
  intro c
  induction c with
  | zero => intro idx q hq; simp [numW] at hq
  | succ c ih =>
    intro idx q hq
    rw [numW_succ] at hq
    split_ifs at hq with hw
    · cases q with
      | zero => simpa using hw
      | succ q =>
        have := ih (idx + 16) q (by omega)
        rw [show idx + 16 * (q + 1) = idx + 16 + 16 * q from by ring]
        exact this
    · omega

theorem numW_max (len : ℕ) : ∀ (c idx : ℕ), numW len idx c < c →
    ¬ ((idx + 16 * numW len idx c) / 8 + 2 < len) := by
  intro c
  induction c with
  | zero => intro idx h; omega
  | succ c ih =>
    intro idx h
    by_cases hw : idx / 8 + 2 < len
    · have hnum : numW len idx (c + 1) = numW len (idx + 16) c + 1 := by
        rw [numW_succ, if_pos hw]
      rw [hnum]
      have := ih (idx + 16) (by omega)
      rw [show idx + 16 * (numW len (idx + 16) c + 1) =
        idx + 16 + 16 * numW len (idx + 16) c from by ring]
      exact this
    · rw [numW_zero len idx (c + 1) hw]
      simpa using hw

theorem numW_add (len : ℕ) : ∀ (a idx b : ℕ),
    numW len idx (a + b) =
      numW len idx a + numW len (idx + 16 * numW len idx a) b := by
  intro a
  induction a with
  | zero => intro idx b; simp [numW]
  | succ a ih =>
    intro idx b
    by_cases hw : idx / 8 + 2 < len
    · have h1 : numW len idx (a + 1 + b) = numW len (idx + 16) (a + b) + 1 := by
        rw [show a + 1 + b = (a + b) + 1 from by ring]
        rw [numW_succ, if_pos hw]
      have h2 : numW len idx (a + 1) = numW len (idx + 16) a + 1 := by
        rw [numW_succ, if_pos hw]
      rw [h1, h2, ih (idx + 16) b,
        show idx + 16 * (numW len (idx + 16) a + 1) =
          idx + 16 + 16 * numW len (idx + 16) a from by ring]
      ring
    · rw [numW_zero len idx (a + 1 + b) hw, numW_zero len idx (a + 1) hw]
      simp [numW_zero len idx b hw]

theorem rowIndex_default (n_rx j : ℕ) : rowIndex [0, 1, 2] n_rx j = j := by
  unfold rowIndex
  rcases j with _ | _ | _ | j
  · split_ifs <;> rfl
  · split_ifs <;> rfl
  · split_ifs <;> rfl
  · rw [if_neg (by simp)]

theorem kLoop_succ (data perm : List ℕ) (n_rx i j rem c k : ℕ) (m : Mat)
    (idx : ℕ) :
    kLoop data perm n_rx i j rem (c + 1) k (m, idx) =
      if idx / 8 + 2 ≥ data.length then (m, idx)
      else kLoop data perm n_rx i j rem c (k + 1)
        (matWrite m i (rowIndex perm n_rx j) k
          (extractByte data (idx / 8) rem, extractByte data (idx / 8 + 1) rem),
         idx + 16) := rfl

/-- Pointwise description of the inner `k` loop: the cursor advances 16 bits
per sample that passes the guard, and exactly the cells `(i, row, k…)` of the
passing samples are overwritten with the extracted values. -/
theorem kLoop_spec (data perm : List ℕ) (n_rx i j rem : ℕ) :
    ∀ (c k : ℕ) (m : Mat) (idx : ℕ), idx % 8 = rem →
      (kLoop data perm n_rx i j rem c k (m, idx)).2 =
          idx + 16 * numW data.length idx c ∧
      ∀ x y z, (kLoop data perm n_rx i j rem c k (m, idx)).1 x y z =
        if x = i ∧ y = rowIndex perm n_rx j ∧ k ≤ z ∧
            z < k + numW data.length idx c then
          extractAt data (idx + 16 * (z - k))
        else m x y z := by
  intro c
  induction c with
  | zero =>
    intro k m idx hrem
    constructor
    · simp [kLoop, numW]
    · intro x y z
      rw [if_neg (by
        rintro ⟨-, -, h1, h2⟩
        simp [numW] at h2
        omega)]
      rfl
  | succ c ih =>
    intro k m idx hrem
    rw [kLoop_succ]
    by_cases hw : idx / 8 + 2 < data.length
    · rw [if_neg (by omega)]
      have hrem16 : (idx + 16) % 8 = rem := by omega
      obtain ⟨ih1, ih2⟩ := ih (k + 1)
        (matWrite m i (rowIndex perm n_rx j) k
          (extractByte data (idx / 8) rem, extractByte data (idx / 8 + 1) rem))
        (idx + 16) hrem16
      have hnum : numW data.length idx (c + 1) =
          numW data.length (idx + 16) c + 1 := by
        rw [numW_succ, if_pos hw]
      constructor
      · rw [ih1, hnum]
        ring
      · intro x y z
        rw [ih2 x y z, hnum]
        by_cases hx : x = i ∧ y = rowIndex perm n_rx j
        · obtain ⟨hx1, hx2⟩ := hx
          by_cases hz1 : k + 1 ≤ z ∧ z < k + 1 + numW data.length (idx + 16) c
          · rw [if_pos ⟨hx1, hx2, hz1.1, hz1.2⟩,
              if_pos ⟨hx1, hx2, by omega, by omega⟩]
            congr 1
            omega
          · rw [if_neg (by tauto)]
            unfold matWrite
            by_cases hzk : z = k
            · subst hzk
              subst hx1
              subst hx2
              rw [if_pos ⟨rfl, rfl, rfl⟩,
                if_pos ⟨rfl, rfl, Nat.le_refl _, by omega⟩]
              simp [extractAt, hrem]
            · rw [if_neg (by tauto), if_neg (by
                rintro ⟨-, -, h1, h2⟩
                exact absurd ⟨by omega, by omega⟩ hz1)]
        · rw [if_neg (by tauto), if_neg (by tauto)]
          unfold matWrite
          rw [if_neg (by tauto)]
    · rw [if_pos (by omega)]
      have hz : numW data.length idx (c + 1) = 0 := numW_zero _ _ _ hw
      constructor
      · simp [hz]
      · intro x y z
        rw [hz, if_neg (by
          rintro ⟨-, -, h1, h2⟩
          omega)]

theorem jLoop_succ (data perm : List ℕ) (n_rx n_tx i rem c j : ℕ)
    (s : Mat × ℕ) :
    jLoop data perm n_rx n_tx i rem (c + 1) j s =
      jLoop data perm n_rx n_tx i rem c (j + 1)
        (kLoop data perm n_rx i j rem n_tx 0 s) := rfl

/-- Pointwise description of the middle `j` loop under the identity
permutation: rows `j0, j0+1, …` are filled in order, 16 bits per sample,
until the truncation guard first fails, after which nothing more is
written. -/
theorem jLoop_spec (data : List ℕ) (n_rx n_tx i rem : ℕ) :
    ∀ (c j0 : ℕ) (m : Mat) (idx : ℕ), idx % 8 = rem →
      (jLoop data [0, 1, 2] n_rx n_tx i rem c j0 (m, idx)).2 =
          idx + 16 * numW data.length idx (c * n_tx) ∧
      ∀ x y z, (jLoop data [0, 1, 2] n_rx n_tx i rem c j0 (m, idx)).1 x y z =
        if x = i ∧ j0 ≤ y ∧ y < j0 + c ∧ z < n_tx ∧
            n_tx * (y - j0) + z < numW data.length idx (c * n_tx) then
          extractAt data (idx + 16 * (n_tx * (y - j0) + z))
        else m x y z := by
  intro c
  induction c with
  | zero =>
    intro j0 m idx hrem
    constructor
    · simp [jLoop, numW]
    · intro x y z
      rw [if_neg (by rintro ⟨-, h1, h2, -, -⟩; omega)]
      rfl
  | succ c ih =>
    intro j0 m idx hrem
    rw [jLoop_succ, ← Prod.mk.eta
      (p := kLoop data [0, 1, 2] n_rx i j0 rem n_tx 0 (m, idx))]
    obtain ⟨hk2, hk1⟩ := kLoop_spec data [0, 1, 2] n_rx i j0 rem n_tx 0 m idx hrem
    rw [rowIndex_default] at hk1
    have hrem' : (kLoop data [0, 1, 2] n_rx i j0 rem n_tx 0 (m, idx)).2 % 8 =
        rem := by
      rw [hk2]
      omega
    obtain ⟨ihA, ihB⟩ := ih (j0 + 1)
      (kLoop data [0, 1, 2] n_rx i j0 rem n_tx 0 (m, idx)).1
      (kLoop data [0, 1, 2] n_rx i j0 rem n_tx 0 (m, idx)).2 hrem'
    rw [hk2] at ihA ihB
    have hwT : numW data.length idx ((c + 1) * n_tx) =
        numW data.length idx n_tx +
          numW data.length (idx + 16 * numW data.length idx n_tx) (c * n_tx) := by
      rw [show (c + 1) * n_tx = n_tx + c * n_tx from by ring,
        numW_add data.length n_tx idx (c * n_tx)]
    have hw0le : numW data.length idx n_tx ≤ n_tx := numW_le data.length n_tx idx
    have hsplit : numW data.length idx n_tx = n_tx ∨
        (numW data.length idx n_tx < n_tx ∧
          numW data.length (idx + 16 * numW data.length idx n_tx) (c * n_tx) = 0) := by
      rcases Nat.eq_or_lt_of_le hw0le with h | h
      · exact Or.inl h
      · exact Or.inr ⟨h, numW_zero _ _ _ (numW_max data.length n_tx idx h)⟩
    constructor
    · rw [hk2, ihA, hwT]
      ring
    · intro x y z
      rw [hk2, ihB x y z, hk1 x y z, hwT]
      by_cases hx : x = i
      · subst hx
        rcases Nat.lt_trichotomy y j0 with hy | hy | hy
        · rw [if_neg (by rintro ⟨-, h1, -, -, -⟩; omega),
            if_neg (by rintro ⟨-, h1, -⟩; omega),
            if_neg (by rintro ⟨-, h1, -, -, -⟩; omega)]
        · subst hy
          rw [if_neg (by rintro ⟨-, h1, -, -, -⟩; omega)]
          have h0 : n_tx * (y - y) = 0 := by simp
          rcases hsplit with hfull | ⟨hpart, hD⟩
          · by_cases hz : z < n_tx
            · rw [if_pos ⟨rfl, rfl, by omega, by omega⟩,
                if_pos ⟨rfl, Nat.le_refl _, by omega, hz, by omega⟩]
              congr 1
              omega
            · rw [if_neg (by rintro ⟨-, -, -, h2⟩; omega),
                if_neg (by rintro ⟨-, -, -, h2, -⟩; omega)]
          · by_cases hz : z < numW data.length idx n_tx
            · rw [if_pos ⟨rfl, rfl, by omega, by omega⟩,
                if_pos ⟨rfl, Nat.le_refl _, by omega, by omega, by omega⟩]
              congr 1
              omega
            · rw [if_neg (by rintro ⟨-, -, -, h2⟩; omega),
                if_neg (by rintro ⟨-, -, -, -, h2⟩; omega)]
        · have hBy : n_tx * (y - j0) = n_tx + n_tx * (y - (j0 + 1)) := by
            rw [show y - j0 = (y - (j0 + 1)) + 1 from by omega, Nat.mul_succ]
            omega
          by_cases hyc : y < j0 + 1 + c
          · rcases hsplit with hfull | ⟨hpart, hD⟩
            · by_cases hcond : z < n_tx ∧
                  n_tx * (y - (j0 + 1)) + z <
                    numW data.length (idx + 16 * numW data.length idx n_tx)
                      (c * n_tx)
              · rw [if_pos ⟨rfl, by omega, hyc, hcond.1, hcond.2⟩,
                  if_pos ⟨rfl, by omega, by omega, hcond.1, by
                    rw [hBy]
                    omega⟩]
                congr 1
                rw [hBy]
                omega
              · rw [if_neg (by
                    rintro ⟨-, -, -, h2, h3⟩
                    exact hcond ⟨h2, h3⟩),
                  if_neg (by rintro ⟨-, h1, -⟩; omega),
                  if_neg (by
                    rintro ⟨-, -, -, h2, h3⟩
                    rw [hBy] at h3
                    exact hcond ⟨h2, by omega⟩)]
            · rw [if_neg (by rintro ⟨-, -, -, -, h3⟩; omega),
                if_neg (by rintro ⟨-, h1, -⟩; omega),
                if_neg (by
                  rintro ⟨-, -, -, -, h3⟩
                  rw [hBy] at h3
                  omega)]
          · rw [if_neg (by rintro ⟨-, -, h2, -, -⟩; omega),
              if_neg (by rintro ⟨-, h1, -⟩; omega),
              if_neg (by rintro ⟨-, -, h2, -, -⟩; omega)]
      · rw [if_neg (by rintro ⟨h1, -⟩; exact hx h1),
          if_neg (by rintro ⟨h1, -⟩; exact hx h1),
          if_neg (by rintro ⟨h1, -⟩; exact hx h1)]

theorem kLoop_stuck (data perm : List ℕ) (n_rx i j rem c k : ℕ) (m : Mat)
    (idx : ℕ) (h : ¬ (idx / 8 + 2 < data.length)) :
    kLoop data perm n_rx i j rem c k (m, idx) = (m, idx) := by
  cases c with
  | zero => rfl
  | succ c => rw [kLoop_succ, if_pos (by omega)]

theorem jLoop_stuck (data perm : List ℕ) (n_rx n_tx i rem : ℕ) :
    ∀ (c j0 : ℕ) (m : Mat) (idx : ℕ), ¬ (idx / 8 + 2 < data.length) →
      jLoop data perm n_rx n_tx i rem c j0 (m, idx) = (m, idx) := by
  intro c
  induction c with
  | zero => intro j0 m idx h; rfl
  | succ c ih =>
    intro j0 m idx h
    rw [jLoop_succ, kLoop_stuck data perm n_rx i j0 rem n_tx 0 m idx h]
    exact ih (j0 + 1) m idx h

theorem iLoop_succ (data perm : List ℕ) (n_rx n_tx c i : ℕ) (s : Mat × ℕ) :
    iLoop data perm n_rx n_tx (c + 1) i s =
      iLoop data perm n_rx n_tx c (i + 1)
        (jLoop data perm n_rx n_tx i ((s.2 + 3) % 8) n_rx 0 (s.1, s.2 + 3)) :=
  rfl

theorem iLoop_noWrite (data perm : List ℕ) (n_rx n_tx : ℕ) :
    ∀ (c i0 : ℕ) (m : Mat) (idx : ℕ),
      ¬ ((idx + 3) / 8 + 2 < data.length) →
      (iLoop data perm n_rx n_tx c i0 (m, idx)).1 = m := by
  intro c
  induction c with
  | zero => intro i0 m idx h; rfl
  | succ c ih =>
    intro i0 m idx h
    rw [iLoop_succ]
    have hj := jLoop_stuck data perm n_rx n_tx i0 (((m, idx).2 + 3) % 8) n_rx 0
      m (idx + 3) h
    simp only at hj ⊢
    rw [hj]
    exact ih (i0 + 1) m (idx + 3) (by omega)

/-- Read position of matrix cell `(x, y, z)`: `3·(x+1)` skipped bits plus 16
bits for every earlier sample, i.e. the decoder's `index` at that write. -/
def posIdx (n_rx n_tx x y z : ℕ) : ℕ :=
  (3 + 16 * (n_rx * n_tx)) * x + 3 + 16 * (n_tx * y + z)

/-- Pointwise description of the full 30-subcarrier decode loop under the
identity permutation: cell `(x, y, z)` holds the sample extracted at bit
position `posIdx` when that position's guard passes, and the untouched
allocation otherwise. -/
theorem iLoop_spec (data : List ℕ) (n_rx n_tx : ℕ) :
    ∀ (c i0 : ℕ) (m : Mat) (idx : ℕ),
      idx = (3 + 16 * (n_rx * n_tx)) * i0 →
      ∀ x y z, (iLoop data [0, 1, 2] n_rx n_tx c i0 (m, idx)).1 x y z =
        if i0 ≤ x ∧ x < i0 + c ∧ y < n_rx ∧ z < n_tx ∧
            posIdx n_rx n_tx x y z / 8 + 2 < data.length then
          extractAt data (posIdx n_rx n_tx x y z)
        else m x y z := by
  intro c
  induction c with
  | zero =>
    intro i0 m idx hidx x y z
    rw [if_neg (by rintro ⟨h1, h2, -⟩; omega)]
    rfl
  | succ c ih =>
    intro i0 m idx hidx x y z
    subst hidx
    rw [iLoop_succ]
    simp only
    obtain ⟨hj2, hj1⟩ := jLoop_spec data n_rx n_tx i0
      (((3 + 16 * (n_rx * n_tx)) * i0 + 3) % 8) n_rx 0 m
      ((3 + 16 * (n_rx * n_tx)) * i0 + 3) rfl
    rw [← Prod.mk.eta (p := jLoop data [0, 1, 2] n_rx n_tx i0
      (((3 + 16 * (n_rx * n_tx)) * i0 + 3) % 8) n_rx 0
      (m, (3 + 16 * (n_rx * n_tx)) * i0 + 3)), hj2]
    have hWle : numW data.length ((3 + 16 * (n_rx * n_tx)) * i0 + 3)
        (n_rx * n_tx) ≤ n_rx * n_tx :=
      numW_le data.length (n_rx * n_tx) _
    have hj1' : ∀ x y z,
        (jLoop data [0, 1, 2] n_rx n_tx i0
          (((3 + 16 * (n_rx * n_tx)) * i0 + 3) % 8) n_rx 0
          (m, (3 + 16 * (n_rx * n_tx)) * i0 + 3)).1 x y z =
        if x = i0 ∧ y < n_rx ∧ z < n_tx ∧
            n_tx * y + z < numW data.length
              ((3 + 16 * (n_rx * n_tx)) * i0 + 3) (n_rx * n_tx) then
          extractAt data
            ((3 + 16 * (n_rx * n_tx)) * i0 + 3 + 16 * (n_tx * y + z))
        else m x y z := by
      intro x y z
      rw [hj1 x y z]
      simp only [Nat.sub_zero, Nat.zero_add, Nat.zero_le, true_and]
    rcases Nat.eq_or_lt_of_le hWle with hfull | hpart
    · -- every sample of this subcarrier passed the guard
      have hIH := ih (i0 + 1)
        (jLoop data [0, 1, 2] n_rx n_tx i0
          (((3 + 16 * (n_rx * n_tx)) * i0 + 3) % 8) n_rx 0
          (m, (3 + 16 * (n_rx * n_tx)) * i0 + 3)).1
        ((3 + 16 * (n_rx * n_tx)) * i0 + 3 +
          16 * numW data.length ((3 + 16 * (n_rx * n_tx)) * i0 + 3)
            (n_rx * n_tx))
        (by rw [hfull]; ring) x y z
      rw [hIH, hj1' x y z]
      rcases Nat.lt_trichotomy x i0 with hx | hx | hx
      · have hn1 : ¬ (i0 + 1 ≤ x ∧ x < i0 + 1 + c ∧ y < n_rx ∧ z < n_tx ∧
            posIdx n_rx n_tx x y z / 8 + 2 < data.length) := by
          rintro ⟨h1, -⟩
          omega
        have hn2 : ¬ (x = i0 ∧ y < n_rx ∧ z < n_tx ∧
            n_tx * y + z < numW data.length
              ((3 + 16 * (n_rx * n_tx)) * i0 + 3) (n_rx * n_tx)) := by
          rintro ⟨h1, -⟩
          omega
        have hn3 : ¬ (i0 ≤ x ∧ x < i0 + (c + 1) ∧ y < n_rx ∧ z < n_tx ∧
            posIdx n_rx n_tx x y z / 8 + 2 < data.length) := by
          rintro ⟨h1, -⟩
          omega
        rw [if_neg hn1, if_neg hn2, if_neg hn3]
      · have hn1 : ¬ (i0 + 1 ≤ x ∧ x < i0 + 1 + c ∧ y < n_rx ∧ z < n_tx ∧
            posIdx n_rx n_tx x y z / 8 + 2 < data.length) := by
          rintro ⟨h1, -⟩
          omega
        rw [if_neg hn1]
        by_cases hyz : y < n_rx ∧ z < n_tx
        · obtain ⟨hy1, hz1⟩ := hyz
          have hq : n_tx * y + z < n_rx * n_tx := by
            rw [Nat.mul_comm n_rx n_tx]
            exact pair_index_lt hy1 hz1
          have hwr : ((3 + 16 * (n_rx * n_tx)) * i0 + 3 +
              16 * (n_tx * y + z)) / 8 + 2 < data.length := by
            apply numW_written data.length (n_rx * n_tx)
            omega
          have hp2 : x = i0 ∧ y < n_rx ∧ z < n_tx ∧
              n_tx * y + z < numW data.length
                ((3 + 16 * (n_rx * n_tx)) * i0 + 3) (n_rx * n_tx) :=
            ⟨hx, hy1, hz1, by omega⟩
          have hp3 : i0 ≤ x ∧ x < i0 + (c + 1) ∧ y < n_rx ∧ z < n_tx ∧
              posIdx n_rx n_tx x y z / 8 + 2 < data.length := by
            refine ⟨by omega, by omega, hy1, hz1, ?_⟩
            unfold posIdx
            rw [hx]
            exact hwr
          rw [if_pos hp2, if_pos hp3]
          unfold posIdx
          rw [hx]
        · have hn2 : ¬ (x = i0 ∧ y < n_rx ∧ z < n_tx ∧
              n_tx * y + z < numW data.length
                ((3 + 16 * (n_rx * n_tx)) * i0 + 3) (n_rx * n_tx)) := by
            rintro ⟨-, h1, h2, -⟩
            exact hyz ⟨h1, h2⟩
          have hn3 : ¬ (i0 ≤ x ∧ x < i0 + (c + 1) ∧ y < n_rx ∧ z < n_tx ∧
              posIdx n_rx n_tx x y z / 8 + 2 < data.length) := by
            rintro ⟨-, -, h1, h2, -⟩
            exact hyz ⟨h1, h2⟩
          rw [if_neg hn2, if_neg hn3]
      · have hn2 : ¬ (x = i0 ∧ y < n_rx ∧ z < n_tx ∧
            n_tx * y + z < numW data.length
              ((3 + 16 * (n_rx * n_tx)) * i0 + 3) (n_rx * n_tx)) := by
          rintro ⟨h1, -⟩
          omega
        by_cases hcond : x < i0 + 1 + c ∧ y < n_rx ∧ z < n_tx ∧
            posIdx n_rx n_tx x y z / 8 + 2 < data.length
        · obtain ⟨hc1, hc2, hc3, hc4⟩ := hcond
          have hp1 : i0 + 1 ≤ x ∧ x < i0 + 1 + c ∧ y < n_rx ∧ z < n_tx ∧
              posIdx n_rx n_tx x y z / 8 + 2 < data.length :=
            ⟨by omega, hc1, hc2, hc3, hc4⟩
          have hp3 : i0 ≤ x ∧ x < i0 + (c + 1) ∧ y < n_rx ∧ z < n_tx ∧
              posIdx n_rx n_tx x y z / 8 + 2 < data.length :=
            ⟨by omega, by omega, hc2, hc3, hc4⟩
          rw [if_pos hp1, if_pos hp3]
        · have hn1 : ¬ (i0 + 1 ≤ x ∧ x < i0 + 1 + c ∧ y < n_rx ∧ z < n_tx ∧
              posIdx n_rx n_tx x y z / 8 + 2 < data.length) := by
            rintro ⟨-, h1, h2, h3, h4⟩
            exact hcond ⟨h1, h2, h3, h4⟩
          have hn3 : ¬ (i0 ≤ x ∧ x < i0 + (c + 1) ∧ y < n_rx ∧ z < n_tx ∧
              posIdx n_rx n_tx x y z / 8 + 2 < data.length) := by
            rintro ⟨-, h1, h2, h3, h4⟩
            exact hcond ⟨by omega, h2, h3, h4⟩
          rw [if_neg hn1, if_neg hn2, if_neg hn3]
    · -- the guard failed inside this subcarrier: nothing more is written
      have hstuck := numW_max data.length (n_rx * n_tx)
        ((3 + 16 * (n_rx * n_tx)) * i0 + 3) hpart
      rw [iLoop_noWrite data [0, 1, 2] n_rx n_tx c (i0 + 1) _ _ (by omega)]
      rw [hj1' x y z]
      rcases Nat.lt_trichotomy x i0 with hx | hx | hx
      · have hn2 : ¬ (x = i0 ∧ y < n_rx ∧ z < n_tx ∧
            n_tx * y + z < numW data.length
              ((3 + 16 * (n_rx * n_tx)) * i0 + 3) (n_rx * n_tx)) := by
          rintro ⟨h1, -⟩
          omega
        have hn3 : ¬ (i0 ≤ x ∧ x < i0 + (c + 1) ∧ y < n_rx ∧ z < n_tx ∧
            posIdx n_rx n_tx x y z / 8 + 2 < data.length) := by
          rintro ⟨h1, -⟩
          omega
        rw [if_neg hn2, if_neg hn3]
      · by_cases hyz : y < n_rx ∧ z < n_tx
        · obtain ⟨hy1, hz1⟩ := hyz
          by_cases hq : n_tx * y + z <
              numW data.length ((3 + 16 * (n_rx * n_tx)) * i0 + 3)
                (n_rx * n_tx)
          · have hwr : ((3 + 16 * (n_rx * n_tx)) * i0 + 3 +
                16 * (n_tx * y + z)) / 8 + 2 < data.length := by
              apply numW_written data.length (n_rx * n_tx)
              omega
            have hp2 : x = i0 ∧ y < n_rx ∧ z < n_tx ∧
                n_tx * y + z < numW data.length
                  ((3 + 16 * (n_rx * n_tx)) * i0 + 3) (n_rx * n_tx) :=
              ⟨hx, hy1, hz1, hq⟩
            have hp3 : i0 ≤ x ∧ x < i0 + (c + 1) ∧ y < n_rx ∧ z < n_tx ∧
                posIdx n_rx n_tx x y z / 8 + 2 < data.length := by
              refine ⟨by omega, by omega, hy1, hz1, ?_⟩
              unfold posIdx
              rw [hx]
              exact hwr
            rw [if_pos hp2, if_pos hp3]
            unfold posIdx
            rw [hx]
          · have hn2 : ¬ (x = i0 ∧ y < n_rx ∧ z < n_tx ∧
                n_tx * y + z < numW data.length
                  ((3 + 16 * (n_rx * n_tx)) * i0 + 3) (n_rx * n_tx)) := by
              rintro ⟨-, -, -, h4⟩
              exact hq h4
            have hn3 : ¬ (i0 ≤ x ∧ x < i0 + (c + 1) ∧ y < n_rx ∧ z < n_tx ∧
                posIdx n_rx n_tx x y z / 8 + 2 < data.length) := by
              rintro ⟨-, -, -, -, h4⟩
              unfold posIdx at h4
              rw [hx] at h4
              omega
            rw [if_neg hn2, if_neg hn3]
        · have hn2 : ¬ (x = i0 ∧ y < n_rx ∧ z < n_tx ∧
              n_tx * y + z < numW data.length
                ((3 + 16 * (n_rx * n_tx)) * i0 + 3) (n_rx * n_tx)) := by
            rintro ⟨-, h1, h2, -⟩
            exact hyz ⟨h1, h2⟩
          have hn3 : ¬ (i0 ≤ x ∧ x < i0 + (c + 1) ∧ y < n_rx ∧ z < n_tx ∧
              posIdx n_rx n_tx x y z / 8 + 2 < data.length) := by
            rintro ⟨-, -, h1, h2, -⟩
            exact hyz ⟨h1, h2⟩
          rw [if_neg hn2, if_neg hn3]
      · have hxp : (3 + 16 * (n_rx * n_tx)) * (i0 + 1) ≤
            (3 + 16 * (n_rx * n_tx)) * x :=
          Nat.mul_le_mul_left _ (by omega)
        have hmul : (3 + 16 * (n_rx * n_tx)) * (i0 + 1) =
            (3 + 16 * (n_rx * n_tx)) * i0 + 3 + 16 * (n_rx * n_tx) := by
          ring
        have hn2 : ¬ (x = i0 ∧ y < n_rx ∧ z < n_tx ∧
            n_tx * y + z < numW data.length
              ((3 + 16 * (n_rx * n_tx)) * i0 + 3) (n_rx * n_tx)) := by
          rintro ⟨h1, -⟩
          omega
        have hn3 : ¬ (i0 ≤ x ∧ x < i0 + (c + 1) ∧ y < n_rx ∧ z < n_tx ∧
            posIdx n_rx n_tx x y z / 8 + 2 < data.length) := by
          rintro ⟨-, -, -, -, h4⟩
          unfold posIdx at h4
          omega
        rw [if_neg hn2, if_neg hn3]

/-- Master description of `read_bfee` under the identity permutation: decoding
succeeds exactly on matching lengths, each in-range cell whose read position
passes the guard holds the extracted sample, and every other cell keeps the
allocation's prior contents. -/
theorem read_bfee_spec (hdr : BfeeHeader) (data : List ℕ) (empty : Mat)
    (hlen : hdr.payload_length = data.length) :
    ∃ m, read_bfee hdr data [0, 1, 2] empty = some m ∧ ∀ x y z,
      m x y z =
        if x < 30 ∧ y < hdr.n_rx ∧ z < hdr.n_tx ∧
            posIdx hdr.n_rx hdr.n_tx x y z / 8 + 2 < data.length then
          extractAt data (posIdx hdr.n_rx hdr.n_tx x y z)
        else empty x y z := by
  refine ⟨_, by unfold read_bfee; rw [if_neg (by omega)], ?_⟩
  intro x y z
  have h := iLoop_spec data hdr.n_rx hdr.n_tx 30 0 empty 0
    (by rw [Nat.mul_zero]) x y z
  rw [h]
  simp only [Nat.zero_le, true_and, Nat.zero_add]

/-- The matrix used as the `np.empty` allocation in the C4 and C5 concrete
runs: uninitialized memory modelled as the constant entry (7, 7). -/
def mat7 : Mat := fun _ _ _ => (7, 7)

/-- Header of the truncated-payload runs: `n_rx = n_tx = 1`,
`payload_length = 10` (a full decode would need 72 bytes). -/
def hdrC4 : BfeeHeader := ⟨0, 0, 0, 1, 1, 0, 0, 0, 0, 0, 0, 10, 0⟩

/-- Amended claim C4: for every length-matching record, decoding does not
fail; entries whose extraction would read past the payload keep the freshly
allocated matrix's prior contents (`np.empty` does not zero-initialize, so
they are arbitrary, not zero), and all entries extracted before the
truncation point keep their decoded values. -/
theorem claim_C4 (hdr : BfeeHeader) (data : List ℕ) (empty : Mat)
    (hlen : hdr.payload_length = data.length) :
    ∃ m, read_bfee hdr data [0, 1, 2] empty = some m ∧
      ∀ x y z, x < 30 → y < hdr.n_rx → z < hdr.n_tx →
        (posIdx hdr.n_rx hdr.n_tx x y z / 8 + 2 < data.length →
          m x y z = extractAt data (posIdx hdr.n_rx hdr.n_tx x y z)) ∧
        (¬ (posIdx hdr.n_rx hdr.n_tx x y z / 8 + 2 < data.length) →
          m x y z = empty x y z) := by
  obtain ⟨m, hm, hpt⟩ := read_bfee_spec hdr data empty hlen
  refine ⟨m, hm, ?_⟩
  intro x y z hx hy hz
  constructor
  · intro hw
    rw [hpt x y z, if_pos ⟨hx, hy, hz, hw⟩]
  · intro hw
    rw [hpt x y z, if_neg (by rintro ⟨-, -, -, h4⟩; exact hw h4)]

/-- Witness for the amended C4 on the 10-byte all-zero payload with the
(7, 7)-filled allocation. -/
theorem claim_C4_witness :
    ∃ m, read_bfee hdrC4 (List.replicate 10 0) [0, 1, 2] mat7 = some m ∧
      ∀ x y z, x < 30 → y < hdrC4.n_rx → z < hdrC4.n_tx →
        (posIdx hdrC4.n_rx hdrC4.n_tx x y z / 8 + 2 <
            (List.replicate 10 (0 : ℕ)).length →
          m x y z = extractAt (List.replicate 10 0)
            (posIdx hdrC4.n_rx hdrC4.n_tx x y z)) ∧
        (¬ (posIdx hdrC4.n_rx hdrC4.n_tx x y z / 8 + 2 <
            (List.replicate 10 (0 : ℕ)).length) →
          m x y z = mat7 x y z) :=
  claim_C4 hdrC4 (List.replicate 10 0) mat7 (by decide)

set_option maxRecDepth 100000 in
/-- Counterexample to C4 as stated: with a (7, 7)-filled allocation, the
never-written cell (29, 0, 0) of the truncated 10-byte decode reads (7, 7),
not the zero the claim promises — `np.empty` does not zero-initialize. -/
theorem claim_C4_cex :
    (read_bfee hdrC4 (List.replicate 10 0) [0, 1, 2] mat7).map
      (fun m => m 29 0 0) = some (7, 7) ∧ ((7, 7) : ℤ × ℤ) ≠ (0, 0) := by
  constructor
  · decide
  · decide

theorem encode_written (n_rx n_tx : ℕ) (vals : ℕ → ℕ → ℕ → ℤ × ℤ)
    (x y z : ℕ) (hx : x < 30) (hy : y < n_rx) (hz : z < n_tx) :
    posIdx n_rx n_tx x y z / 8 + 2 < (encodePayload n_rx n_tx vals).length := by
  unfold encodePayload
  rw [bitsToBytes_length, payloadBits_length]
  have hq : n_tx * y + z < n_rx * n_tx := by
    rw [Nat.mul_comm n_rx n_tx]
    exact pair_index_lt hy hz
  have hxb : (3 + 16 * (n_rx * n_tx)) * x ≤ (3 + 16 * (n_rx * n_tx)) * 29 :=
    Nat.mul_le_mul_left _ (by omega)
  have h29 : (3 + 16 * (n_rx * n_tx)) * 29 = 87 + 464 * (n_rx * n_tx) := by
    ring
  have h30 : 30 * (3 + n_rx * (n_tx * 16)) = 90 + 480 * (n_rx * n_tx) := by
    ring
  unfold posIdx
  omega

theorem extractAt_encode (n_rx n_tx : ℕ) (vals : ℕ → ℕ → ℕ → ℤ × ℤ)
    (x y z : ℕ) (hx : x < 30) (hy : y < n_rx) (hz : z < n_tx)
    (hb : -128 ≤ (vals x y z).1 ∧ (vals x y z).1 ≤ 127 ∧
          -128 ≤ (vals x y z).2 ∧ (vals x y z).2 ≤ 127) :
    extractAt (encodePayload n_rx n_tx vals) (posIdx n_rx n_tx x y z) =
      vals x y z := by
  unfold extractAt encodePayload
  have hrem : posIdx n_rx n_tx x y z % 8 < 8 := Nat.mod_lt _ (by norm_num)
  rw [extractByte_bits _ _ _ hrem, extractByte_bits _ _ _ hrem,
    Nat.div_add_mod,
    show 8 * (posIdx n_rx n_tx x y z / 8 + 1) + posIdx n_rx n_tx x y z % 8 =
      8 * (posIdx n_rx n_tx x y z / 8) + posIdx n_rx n_tx x y z % 8 + 8 from by
        ring,
    Nat.div_add_mod]
  have h1 : specByteAt (payloadBits n_rx n_tx vals) (posIdx n_rx n_tx x y z) =
      byteOfBits (int8Bits (vals x y z).1) := by
    apply specByteAt_eq_byteOfBits (int8Bits_length _)
    intro t ht
    rw [show posIdx n_rx n_tx x y z + t =
      (3 + n_rx * (n_tx * 16)) * x + (3 + ((n_tx * 16) * y + (16 * z + t)))
      from by unfold posIdx; ring]
    rw [payloadBits_getD n_rx n_tx vals x y z t hx hy hz (by omega)]
    unfold pairBits
    rw [getD_append_left _ _ _ _ (by rw [int8Bits_length]; omega)]
  have h2 : specByteAt (payloadBits n_rx n_tx vals)
      (posIdx n_rx n_tx x y z + 8) = byteOfBits (int8Bits (vals x y z).2) := by
    apply specByteAt_eq_byteOfBits (int8Bits_length _)
    intro t ht
    rw [show posIdx n_rx n_tx x y z + 8 + t =
      (3 + n_rx * (n_tx * 16)) * x +
        (3 + ((n_tx * 16) * y + (16 * z + (8 + t))))
      from by unfold posIdx; ring]
    rw [payloadBits_getD n_rx n_tx vals x y z (8 + t) hx hy hz (by omega)]
    unfold pairBits
    rw [getD_append_right _ _ _ _ (by rw [int8Bits_length]; omega),
      int8Bits_length]
    congr 1
    omega
  rw [h1, h2, toInt8_int8Bits _ hb.1 hb.2.1,
    toInt8_int8Bits _ hb.2.2.1 hb.2.2.2]

/-- The claim C2 statement: decoding a synthetically bit-packed payload (3
filler bits per subcarrier, then 16 bits per antenna pair, with the source's
shift-or extraction and `np.int8` reinterpretation) reproduces the original
complex integer values at every `[subcarrier][rx][tx]` position, for the
default permutation `[0, 1, 2]` and any in-range component values. -/
theorem claim_C2 (n_rx n_tx : ℕ) (vals : ℕ → ℕ → ℕ → ℤ × ℤ)
    (hdr : BfeeHeader) (empty : Mat) (hrx : hdr.n_rx = n_rx)
    (htx : hdr.n_tx = n_tx)
    (hlen : hdr.payload_length = (encodePayload n_rx n_tx vals).length)
    (hbound : ∀ i, i < 30 → ∀ j, j < n_rx → ∀ k, k < n_tx →
      -128 ≤ (vals i j k).1 ∧ (vals i j k).1 ≤ 127 ∧
      -128 ≤ (vals i j k).2 ∧ (vals i j k).2 ≤ 127) :
    ∃ m, read_bfee hdr (encodePayload n_rx n_tx vals) [0, 1, 2] empty =
        some m ∧
      ∀ i, i < 30 → ∀ j, j < n_rx → ∀ k, k < n_tx → m i j k = vals i j k := by
  subst hrx
  subst htx
  obtain ⟨m, hm, hpt⟩ := read_bfee_spec hdr _ empty hlen
  refine ⟨m, hm, ?_⟩
  intro i hi j hj k hk
  rw [hpt i j k,
    if_pos ⟨hi, hj, hk, encode_written _ _ vals i j k hi hj hk⟩,
    extractAt_encode _ _ vals i j k hi hj hk (hbound i hi j hj k hk)]

/-- The concrete payload values of the C2 witness: per subcarrier `i`, the
sample `(i − 15, 14 − i)`, exercising both signs. -/
def valsC2 : ℕ → ℕ → ℕ → ℤ × ℤ := fun i _ _ => ((i : ℤ) - 15, 14 - (i : ℤ))

/-- Header for the C2 witness: `n_rx = n_tx = 1` and the matching payload
length 72 = ceil((30 · (3 + 16)) / 8). -/
def hdrC2 : BfeeHeader := ⟨0, 0, 0, 1, 1, 0, 0, 0, 0, 0, 0, 72, 0⟩

set_option maxRecDepth 100000 in
/-- Witness for C2 with `n_rx = n_tx = 1` and values `(i − 15, 14 − i)`. -/
theorem claim_C2_witness :
    ∃ m, read_bfee hdrC2 (encodePayload 1 1 valsC2) [0, 1, 2] matZero =
        some m ∧
      ∀ i, i < 30 → ∀ j, j < 1 → ∀ k, k < 1 → m i j k = valsC2 i j k :=
  claim_C2 1 1 valsC2 hdrC2 matZero rfl rfl (by decide) (by decide)
